import Mathlib

/-!
Verification development for a Rust benchmark runner (`src/main.rs`).

The program discovers "proof" directories (subdirectories of a root that
contain a `Makefile`), runs `make result` in each of them a configured
number of times on a bounded pool of worker threads, streams lifecycle
events over a channel to a single aggregator loop, and writes one CSV row
per finished job.

The shallow embedding below translates each piece of the program into a
pure Lean function:
  * `run_proof_payloads` - the event sequence emitted by `run_proof`
    (src/main.rs lines 46-68), parameterised by the sequence of results
    that the calls to `run_make` return;
  * `to_proof_dir` / `run_all_proofs_discovery` - the directory scan of
    `to_proof_dir` and `run_all_proofs_in` (lines 70-82, 109-115);
  * `dump_csv` - the CSV row writer (lines 134-148), as a list of file
    operations;
  * `processEvent` / `aggLoop` - the aggregator loop body and loop of
    `benchmark_all_proofs_in` (lines 160-225), with Rust `HashMap`s
    embedded as association lists with overwrite-on-insert semantics and
    a panic embedded as `none`;
  * `PoolStep` - a small-step semantics of the worker pool (lines
    84-131);
  * `applyOp` - the POSIX-style file semantics behind the
    `OpenOptions` call on line 156.

Rust `Instant`s are embedded as `Nat` timestamps; `Instant` subtraction
saturates at zero, which `Nat` subtraction models exactly.
-/

/-- The five lifecycle event kinds, from `enum JobMessagePayload`
(src/main.rs lines 20-26). -/
inductive JobMessagePayload where
  | JobStarted
  | RunStarted
  | RunFinished
  | RunFailed
  | JobFinished
deriving DecidableEq

/-- Is `b` a UTF-8 continuation byte (0x80..0xBF)? -/
def utf8Cont (b : Nat) : Bool := 128 ≤ b && b ≤ 191

/-- Genuine UTF-8 validation of a byte sequence, following the table in
RFC 3629: rejects overlong encodings, surrogate code points and code
points above U+10FFFF.  This embeds the check performed by Rust's
`OsStr::to_str` on Unix, used at src/main.rs line 166. -/
def validUtf8 : List Nat → Bool
  | [] => true
  | b :: rest =>
    if b < 128 then validUtf8 rest
    else if b < 194 then false
    else if b < 224 then
      match rest with
      | c1 :: rest2 => utf8Cont c1 && validUtf8 rest2
      | [] => false
    else if b < 240 then
      match rest with
      | c1 :: c2 :: rest2 =>
        (if b = 224 then 160 ≤ c1 && c1 ≤ 191
         else if b = 237 then 128 ≤ c1 && c1 ≤ 159
         else utf8Cont c1) && utf8Cont c2 && validUtf8 rest2
      | _ => false
    else if b < 245 then
      match rest with
      | c1 :: c2 :: c3 :: rest2 =>
        (if b = 240 then 144 ≤ c1 && c1 ≤ 191
         else if b = 244 then 128 ≤ c1 && c1 ≤ 143
         else utf8Cont c1) && utf8Cont c2 && utf8Cont c3 && validUtf8 rest2
      | _ => false
    else false

/-- A filesystem path (`PathBuf`), embedded as its list of components,
each component being its raw bytes. -/
structure RustPath where
  components : List (List Nat)
deriving DecidableEq

/-- `Path::join`: append one more component. -/
def pathJoin (p : RustPath) (c : List Nat) : RustPath :=
  ⟨p.components ++ [c]⟩

/-- `Path::file_name`: the final component, or `none` when there is no
final component or it is `..` (bytes `0x2E 0x2E`). -/
def pathFileName (p : RustPath) : Option (List Nat) :=
  match p.components.getLast? with
  | some c => if c = [46, 46] then none else some c
  | none => none

/-- The job-name extraction of src/main.rs lines 163-167:
`proof_path.file_name().expect(..).to_str().expect(..)`.  Returns the
final component's bytes when they are valid UTF-8, `none` (a panic in
the Rust program) otherwise. -/
def fileNameUtf8 (p : RustPath) : Option (List Nat) :=
  match pathFileName p with
  | some c => if validUtf8 c then some c else none
  | none => none

/-- The result of `run_make` (src/main.rs lines 35-44):
`std::io::Result<ExitStatus>`.  `Except.ok code` means the command was
spawned and exited with status `code`; `Except.error ()` means the spawn
itself failed. -/
abbrev RunMakeResult := Except Unit Nat

/-- The event payload `run_proof` emits after one `run_make` call
(src/main.rs lines 55-63): `RunFinished` whenever the result is `Ok`
(the exit status itself, bound as `_status`, is ignored), `RunFailed`
when the spawn failed. -/
def runOutcomePayload : RunMakeResult → JobMessagePayload
  | .ok _ => .RunFinished
  | .error _ => .RunFailed

/-- The payloads emitted by the `for _ in 0..iterations` loop of
`run_proof` (src/main.rs lines 51-64), one `RunStarted` plus one outcome
payload per `run_make` result. -/
def runIterationPayloads : List RunMakeResult → List JobMessagePayload
  | [] => []
  | r :: rs => .RunStarted :: runOutcomePayload r :: runIterationPayloads rs

/-- The full payload sequence emitted by `run_proof` (src/main.rs lines
46-68) for one job, where `results` lists the `run_make` result of each
iteration in order (so `iterations = results.length`). -/
def run_proof_payloads (results : List RunMakeResult) : List JobMessagePayload :=
  .JobStarted :: (runIterationPayloads results ++ [.JobFinished])

example : run_proof_payloads [Except.ok 1] =
    [.JobStarted, .RunStarted, .RunFinished, .JobFinished] := by decide

example : run_proof_payloads [Except.error (), Except.ok 0] =
    [.JobStarted, .RunStarted, .RunFailed, .RunStarted, .RunFinished, .JobFinished] := by
  decide

/-! ## Job discovery (src/main.rs lines 70-82 and 109-115) -/

/-- One entry yielded by `read_dir`: its file name (final path
component). -/
structure DirEntry where
  name : List Nat
deriving DecidableEq

/-- The bytes of `"Makefile"`. -/
def makefileBytes : List Nat := [77, 97, 107, 101, 102, 105, 108, 101]

/-- `to_proof_dir` (src/main.rs lines 70-82).  `fs p` embeds
`Path::exists` for path `p`; `root` is the scanned proofs directory, so
`entry.path()` is `pathJoin root entry.name`.  An `Except.error` input
embeds an `io::Result<DirEntry>` read failure, which `.ok()` turns into
`None` (silently excluded). -/
def to_proof_dir (fs : RustPath → Bool) (root : RustPath) :
    Except Unit DirEntry → Option RustPath
  | .error _ => none
  | .ok entry =>
    if fs (pathJoin (pathJoin root entry.name) makefileBytes) then
      some (pathJoin root entry.name)
    else none

/-- Byte-wise lexicographic order on OS strings: the order in which
`Ord` on `OsStr` compares two components on Unix. -/
def bytesLe : List Nat → List Nat → Bool
  | [], _ => true
  | _ :: _, [] => false
  | a :: as, b :: bs => if a < b then true else if b < a then false else bytesLe as bs

/-- `Ord` on `PathBuf`: lexicographic comparison of the component lists,
components compared byte-wise. -/
def pathLe : List (List Nat) → List (List Nat) → Bool
  | [], _ => true
  | _ :: _, [] => false
  | c :: cs, d :: ds => if c = d then pathLe cs ds else bytesLe c d

/-- `pathLe` lifted to `RustPath`. -/
def rustPathLe (p q : RustPath) : Bool := pathLe p.components q.components

/-- Ordered insertion, the building block of the sort model. -/
def insertLe (le : RustPath → RustPath → Bool) (x : RustPath) :
    List RustPath → List RustPath
  | [] => [x]
  | y :: ys => if le x y then x :: y :: ys else y :: insertLe le x ys

/-- Insertion sort: an executable model of `Vec::sort` (src/main.rs line
112), which sorts ascending by `Ord`. -/
def sortPaths (le : RustPath → RustPath → Bool) : List RustPath → List RustPath
  | [] => []
  | x :: xs => insertLe le x (sortPaths le xs)

/-- The discovery part of `run_all_proofs_in` (src/main.rs lines
109-115): map `to_proof_dir` over the `read_dir` entries, drop the
`None`s, and sort.  The returned list is `proof_dirs`; its length is the
`nr_of_jobs` the function returns. -/
def run_all_proofs_discovery (fs : RustPath → Bool) (root : RustPath)
    (entries : List (Except Unit DirEntry)) : List RustPath :=
  sortPaths rustPathLe (entries.filterMap (to_proof_dir fs root))

/-! ## The CSV writer `dump_csv` (src/main.rs lines 134-148) -/

/-- One operation on the open CSV `File`. -/
inductive FileOp where
  | write (bytes : List Nat)
  | flush
deriving DecidableEq

/-- `dump_csv` (src/main.rs lines 134-148) as the sequence of file
operations it performs.  `fmt` embeds the collaborator
`format!("{}", runtime.as_secs_f32())`, rendering a duration as decimal
seconds; byte 44 is the comma, byte 10 the newline.  A `None` run result
contributes its comma but no digits (an empty field). -/
def dump_csv (fmt : Nat → List Nat) (job_name : List Nat)
    (run_results : List (Option Nat)) : List FileOp :=
  [FileOp.write job_name] ++
    (run_results.flatMap fun run =>
      [FileOp.write [44]] ++
        (match run with
         | some runtime => [FileOp.write (fmt runtime)]
         | none => [])) ++
    [FileOp.write [10], FileOp.flush]

/-- The bytes a sequence of file operations writes, in order. -/
def opsBytes : List FileOp → List Nat
  | [] => []
  | .write b :: rest => b ++ opsBytes rest
  | .flush :: rest => opsBytes rest

/-! ## The aggregator of `benchmark_all_proofs_in` (src/main.rs lines
150-225)

The two `HashMap`s are embedded as association lists whose `insert`
overwrites (the new binding shadows and removes any old one), matching
`HashMap::insert`; `lookup` finds the current binding and `remove`
deletes it.  A panic (a failed `expect` or a panicking `Index` lookup)
is embedded as `none`. -/

/-- `HashMap::insert`: bind `k` to `v`, discarding any previous binding
(the previous value is returned by Rust and ignored by this program). -/
def mapInsert {V : Type} (m : List (RustPath × V)) (k : RustPath) (v : V) :
    List (RustPath × V) :=
  (k, v) :: m.filter (fun kv => kv.1 ≠ k)

/-- `HashMap` lookup (`get` / `Index`): the current binding of `k`. -/
def mapLookup {V : Type} (m : List (RustPath × V)) (k : RustPath) : Option V :=
  match m with
  | [] => none
  | (k', v) :: rest => if k' = k then some v else mapLookup rest k

/-- `HashMap::remove`: drop the binding of `k`. -/
def mapRemove {V : Type} (m : List (RustPath × V)) (k : RustPath) :
    List (RustPath × V) :=
  m.filter (fun kv => kv.1 ≠ k)

/-- `struct JobMessage(PathBuf, Instant, JobMessagePayload)`
(src/main.rs line 28), with the `Instant` embedded as a `Nat`. -/
structure JobMessage where
  path : RustPath
  timestamp : Nat
  payload : JobMessagePayload
deriving DecidableEq

/-- The aggregator's mutable state in `benchmark_all_proofs_in`:
`proof_runtimes`, `started_runs`, `completed_jobs` (lines 158-161), and
the sequence of operations performed on `csv_file` so far. -/
structure AggState where
  proof_runtimes : List (RustPath × List (Option Nat))
  started_runs : List (RustPath × Nat)
  completed_jobs : Nat
  csv : List FileOp
deriving DecidableEq

/-- The aggregator's state when the receive loop starts (lines
158-161): both maps empty, no job completed, nothing written. -/
def initAgg : AggState := ⟨[], [], 0, []⟩

/-- One iteration of the receive loop of `benchmark_all_proofs_in`
(src/main.rs lines 162-223).  `none` embeds a panic:
  * the `expect`s on `file_name()`/`to_str()` (lines 163-167);
  * indexing `proof_runtimes[&proof_path]` with no entry (line 176);
  * `expect` on a `RunStarted` for a job with no record (line 183);
  * `expect` on a `RunFailed`/`RunFinished` with no started run
    (lines 189-191, 206-208) or no record (lines 193-195, 210-212).
On `RunFinished` the recorded duration is `timestamp - start_time`
(line 209), which saturates at zero exactly as `Instant` subtraction
does.  On `RunFailed` the record gets `None` (line 203).  Note that
`JobStarted` and `RunStarted` use plain `HashMap::insert`, which
silently overwrites an existing record or start marker. -/
def processEvent (fmt : Nat → List Nat) (s : AggState) (e : JobMessage) :
    Option AggState :=
  match fileNameUtf8 e.path with
  | none => none
  | some job_name =>
    match e.payload with
    | .JobStarted =>
      some { s with proof_runtimes := mapInsert s.proof_runtimes e.path [] }
    | .JobFinished =>
      match mapLookup s.proof_runtimes e.path with
      | none => none
      | some record =>
        some { s with
          completed_jobs := s.completed_jobs + 1,
          csv := s.csv ++ dump_csv fmt job_name record }
    | .RunStarted =>
      match mapLookup s.proof_runtimes e.path with
      | none => none
      | some _ =>
        some { s with started_runs := mapInsert s.started_runs e.path e.timestamp }
    | .RunFailed =>
      match mapLookup s.started_runs e.path with
      | none => none
      | some _ =>
        match mapLookup s.proof_runtimes e.path with
        | none => none
        | some record =>
          some { s with
            started_runs := mapRemove s.started_runs e.path,
            proof_runtimes := mapInsert s.proof_runtimes e.path (record ++ [none]) }
    | .RunFinished =>
      match mapLookup s.started_runs e.path with
      | none => none
      | some start_time =>
        match mapLookup s.proof_runtimes e.path with
        | none => none
        | some record =>
          some { s with
            started_runs := mapRemove s.started_runs e.path,
            proof_runtimes :=
              mapInsert s.proof_runtimes e.path
                (record ++ [some (e.timestamp - start_time)]) }

/-- The whole receive loop (src/main.rs lines 162-223) over the finite
sequence of messages delivered before the channel disconnects. -/
def aggLoop (fmt : Nat → List Nat) (s : AggState) :
    List JobMessage → Option AggState
  | [] => some s
  | e :: rest =>
    match processEvent fmt s e with
    | none => none
    | some s' => aggLoop fmt s' rest

/-! ## File-open semantics for the CSV sink (src/main.rs line 156) -/

/-- The `OpenOptions` flags that matter for the content of an existing
file. -/
structure OpenOptionsModel where
  createFlag : Bool
  writeFlag : Bool
  truncateFlag : Bool
  appendFlag : Bool
deriving DecidableEq

/-- The options used on src/main.rs line 156:
`OpenOptions::new().create(true).write(true)` - no `truncate`, no
`append`. -/
def csvOpenOptions : OpenOptionsModel :=
  { createFlag := true, writeFlag := true, truncateFlag := false, appendFlag := false }

/-- An open file: its byte content and the cursor position. -/
structure FileState where
  content : List Nat
  pos : Nat
deriving DecidableEq

/-- Modelled from the Rust standard library's documented `OpenOptions`
semantics (the call site is src/main.rs line 156, the semantics is
std's, not this repository's): opening an existing file with content
`old` truncates the content exactly when `truncate` is set, and places
the cursor at the end exactly when `append` is set, else at byte 0. -/
def openExisting (opts : OpenOptionsModel) (old : List Nat) : FileState :=
  { content := if opts.truncateFlag then [] else old,
    pos := if opts.appendFlag then old.length else 0 }

/-- Modelled from POSIX write semantics: `File::write` overwrites
`bytes.length` bytes at the cursor (extending the file as needed) and
advances the cursor; `flush` does not change content or cursor. -/
def applyOp (f : FileState) : FileOp → FileState
  | .write bytes =>
    { content :=
        f.content.take f.pos ++ bytes ++ f.content.drop (f.pos + bytes.length),
      pos := f.pos + bytes.length }
  | .flush => f

/-- Run a whole sequence of file operations. -/
def applyOps (f : FileState) (ops : List FileOp) : FileState :=
  ops.foldl applyOp f

/-! ## The worker pool (src/main.rs lines 84-131)

`run_all_proofs_in` spawns `parallel_jobs` worker threads
(`start_proof_job`, lines 84-97), each looping `recv` on a shared
unbounded channel of `RunProofMessage`s and calling `run_proof` on each
message it receives; the main thread sends one message per discovered
proof directory (lines 123-130).  The small-step relation below models
this system: `pending` is the channel's queue, each worker is either
idle (`none`) or running a job's external commands (`some w`), and
`done` collects jobs whose `run_proof` call has returned.  A channel
delivers each message to exactly one receiver, which `grab`'s removal
of the head embeds. -/

/-- `struct RunProofMessage` (src/main.rs lines 30-33). -/
structure RunProofMessage where
  job_path : RustPath
  iterations : Nat
deriving DecidableEq

/-- The state of the pool: queued work, per-worker current job, and
completed jobs. -/
structure PoolState where
  pending : List RunProofMessage
  workers : List (Option RunProofMessage)
  done : List RunProofMessage
deriving DecidableEq

/-- The jobs currently being executed (external commands in flight,
since `run_proof` blocks in `run_make` for the whole slot). -/
def busyJobs (s : PoolState) : List RunProofMessage :=
  s.workers.filterMap id

/-- One scheduling step: an idle worker receives the head of the queue
(`recv` in `start_proof_job`, line 89), or a busy worker's `run_proof`
returns and the worker loops back to `recv`. -/
inductive PoolStep : PoolState → PoolState → Prop where
  | grab (s : PoolState) (i : Nat) (w : RunProofMessage)
      (rest : List RunProofMessage) :
      s.workers[i]? = some none →
      s.pending = w :: rest →
      PoolStep s ⟨rest, s.workers.set i (some w), s.done⟩
  | finish (s : PoolState) (i : Nat) (w : RunProofMessage) :
      s.workers[i]? = some (some w) →
      PoolStep s ⟨s.pending, s.workers.set i none, w :: s.done⟩

/-- The initial pool state: all discovered work queued (the main thread
sends every message into the unbounded channel, lines 123-130),
`parallel_jobs` idle workers (lines 118-120), nothing done. -/
def initPool (items : List RunProofMessage) (parallel_jobs : Nat) : PoolState :=
  ⟨items, List.replicate parallel_jobs none, []⟩

/-- States the pool can reach from the start of a batch. -/
def PoolReachable (items : List RunProofMessage) (parallel_jobs : Nat)
    (s : PoolState) : Prop :=
  Relation.ReflTransGen PoolStep (initPool items parallel_jobs) s

/-! ## Multiplexed event traces

The channel delivers events from each worker in emission order
(per-producer FIFO) with arbitrary interleaving across jobs.  A trace is
faithful to one batch when, for every job, the subsequence of that job's
events is exactly the sequence `run_proof` emits for it. -/

/-- How many times payload `p` occurs in a payload list. -/
def countPayload (p : JobMessagePayload) (l : List JobMessagePayload) : Nat :=
  l.countP (fun x => decide (x = p))

/-- The payloads of the events of job `p`, in delivery order. -/
def payloadProj (p : RustPath) (t : List JobMessage) : List JobMessagePayload :=
  (t.filter (fun e => decide (e.path = p))).map (fun e => e.payload)

/-- The number of `JobFinished` events in a message list: the value of
`completed_jobs` after the aggregator has processed it. -/
def msgsFinished (t : List JobMessage) : Nat :=
  t.countP (fun e => decide (e.payload = JobMessagePayload.JobFinished))

/-- `t` is a complete delivered trace of a batch over the (distinct)
discovered jobs `jobs`, where job `p`'s `run_make` calls returned
`results p`: every event belongs to a discovered job and each job's
projection is exactly its `run_proof` emission. -/
def completeTrace (jobs : List RustPath) (results : RustPath → List RunMakeResult)
    (t : List JobMessage) : Prop :=
  jobs.Nodup ∧ (∀ e ∈ t, e.path ∈ jobs) ∧
    ∀ p ∈ jobs, payloadProj p t = run_proof_payloads (results p)

/-- A one-component path with name `"a"`, used as a concrete job
directory in witnesses. -/
def pathA : RustPath := ⟨[[97]]⟩

/-- A trivial duration formatter, used as the `fmt` collaborator in
witnesses. -/
def fmt0 : Nat → List Nat := fun _ => []

/-- The empty root directory path, used in witnesses. -/
def root0 : RustPath := ⟨[]⟩

/-- A concrete filesystem for witnesses: exactly the two files
`a/Makefile` and `b/Makefile` (relative to `root0`) exist. -/
def fs0 : RustPath → Bool := fun p =>
  decide (p = pathJoin (pathJoin root0 [97]) makefileBytes) ||
    decide (p = pathJoin (pathJoin root0 [98]) makefileBytes)

/-- A concrete `read_dir` listing for witnesses: entry `"b"`, a failed
entry read, then entry `"a"`. -/
def entries0 : List (Except Unit DirEntry) :=
  [Except.ok ⟨[98]⟩, Except.error (), Except.ok ⟨[97]⟩]

/-- A concrete complete trace for witnesses: one job `"a"` with zero
iterations. -/
def trace0 : List JobMessage :=
  [⟨pathA, 0, JobMessagePayload.JobStarted⟩,
   ⟨pathA, 1, JobMessagePayload.JobFinished⟩]

/-- A concrete one-job work list for witnesses. -/
def items0 : List RunProofMessage := [⟨pathA, 1⟩]

/-- The names of the entries of a `read_dir` listing that were read
successfully (a real directory listing never repeats a name, so these
are assumed distinct where needed). -/
def okNames (entries : List (Except Unit DirEntry)) : List (List Nat) :=
  entries.filterMap fun e =>
    match e with
    | .ok entry => some entry.name
    | .error _ => none

/-! # Theorems

First some reusable lemmas about the embedded `HashMap` operations, the
executor's payload sequence, and the file model; then one theorem (plus
witness or counterexample) per claim. -/

/-- Lookup after erasing key `k` agrees with lookup for any other key. -/
theorem mapLookup_erase_ne {V : Type} (m : List (RustPath × V)) (k k' : RustPath)
    (h : k ≠ k') :
    mapLookup (m.filter (fun kv => kv.1 ≠ k)) k' = mapLookup m k' := by
  induction m with
  | nil => rfl
  | cons kv rest ih =>
    obtain ⟨k1, v1⟩ := kv
    simp only [ne_eq, decide_not] at ih ⊢
    by_cases hk : k1 = k
    · subst hk
      simp [List.filter_cons, mapLookup, h, ih]
    · by_cases hk2 : k1 = k'
      · subst hk2
        simp [List.filter_cons, hk, mapLookup]
      · simp [List.filter_cons, hk, mapLookup, hk2, ih]

/-- Lookup of the freshly inserted key. -/
theorem mapLookup_insert_self {V : Type} (m : List (RustPath × V)) (k : RustPath)
    (v : V) : mapLookup (mapInsert m k v) k = some v := by
  simp [mapInsert, mapLookup]

/-- Insertion does not disturb other keys. -/
theorem mapLookup_insert_ne {V : Type} (m : List (RustPath × V)) (k k' : RustPath)
    (v : V) (h : k ≠ k') :
    mapLookup (mapInsert m k v) k' = mapLookup m k' := by
  simp only [mapInsert, mapLookup, if_neg h]
  exact mapLookup_erase_ne m k k' h

/-- Lookup of a removed key fails. -/
theorem mapLookup_remove_self {V : Type} (m : List (RustPath × V)) (k : RustPath) :
    mapLookup (mapRemove m k) k = none := by
  induction m with
  | nil => rfl
  | cons kv rest ih =>
    obtain ⟨k1, v1⟩ := kv
    by_cases hk : k1 = k
    · simpa [mapRemove, List.filter_cons, hk] using ih
    · simpa [mapRemove, List.filter_cons, hk, mapLookup] using ih

/-- The loop body of `run_proof` as a `flatMap` over the outcome
payloads. -/
theorem runIterationPayloads_eq_flatMap (results : List RunMakeResult) :
    runIterationPayloads results =
      (results.map runOutcomePayload).flatMap
        (fun b => [JobMessagePayload.RunStarted, b]) := by
  induction results with
  | nil => rfl
  | cons r rs ih => simp [runIterationPayloads, List.flatMap_cons, ih]

/-- `countPayload` of the empty list. -/
theorem countPayload_nil (p : JobMessagePayload) : countPayload p [] = 0 := rfl

/-- `countPayload` over a cons. -/
theorem countPayload_cons (p x : JobMessagePayload) (l : List JobMessagePayload) :
    countPayload p (x :: l) = countPayload p l + (if x = p then 1 else 0) := by
  simp [countPayload, List.countP_cons]

/-- `countPayload` over an append. -/
theorem countPayload_append (p : JobMessagePayload) (l1 l2 : List JobMessagePayload) :
    countPayload p (l1 ++ l2) = countPayload p l1 + countPayload p l2 := by
  simp [countPayload, List.countP_append]

/-- Each loop iteration of `run_proof` emits exactly one `RunStarted`. -/
theorem countPayload_iter_started (results : List RunMakeResult) :
    countPayload JobMessagePayload.RunStarted (runIterationPayloads results) =
      results.length := by
  induction results with
  | nil => rfl
  | cons r rs ih =>
    cases r <;>
      simp [runIterationPayloads, countPayload_cons, runOutcomePayload, ih,
        Nat.add_comm]

/-- Each loop iteration of `run_proof` emits exactly one of
`RunFinished`/`RunFailed`. -/
theorem countPayload_iter_outcome (results : List RunMakeResult) :
    countPayload JobMessagePayload.RunFinished (runIterationPayloads results) +
      countPayload JobMessagePayload.RunFailed (runIterationPayloads results) =
        results.length := by
  induction results with
  | nil => rfl
  | cons r rs ih =>
    cases r <;>
      simp [runIterationPayloads, countPayload_cons, runOutcomePayload] <;>
      omega

/-- The loop of `run_proof` emits no `JobStarted`. -/
theorem countPayload_iter_jobStarted (results : List RunMakeResult) :
    countPayload JobMessagePayload.JobStarted (runIterationPayloads results) = 0 := by
  induction results with
  | nil => rfl
  | cons r rs ih =>
    cases r <;> simp [runIterationPayloads, countPayload_cons, runOutcomePayload, ih]

/-- The loop of `run_proof` emits no `JobFinished`. -/
theorem countPayload_iter_jobFinished (results : List RunMakeResult) :
    countPayload JobMessagePayload.JobFinished (runIterationPayloads results) = 0 := by
  induction results with
  | nil => rfl
  | cons r rs ih =>
    cases r <;> simp [runIterationPayloads, countPayload_cons, runOutcomePayload, ih]

/-- **C1** (counterexample).  The claim says `RunFinished` is emitted
iff the external command was launched *and exited with status 0*.  On a
launch with exit status 1 (non-zero) the code still emits `RunFinished`:
`run_proof` only pattern-matches `Ok(_status)` and never inspects the
status (src/main.rs line 55). -/
theorem C1_counterexample :
    runOutcomePayload (Except.ok 1) = JobMessagePayload.RunFinished ∧
    (1 : Nat) ≠ 0 ∧
    run_proof_payloads [Except.ok 1] =
      [JobMessagePayload.JobStarted, JobMessagePayload.RunStarted,
       JobMessagePayload.RunFinished, JobMessagePayload.JobFinished] := by
  decide

/-- **C1** (amended).  For every run, the executor emits `RunFinished`
iff the external command was spawned at all (`run_make` returned `Ok`,
whatever the exit status), and `RunFailed` iff the spawn failed; a
spawn failure is recorded by the aggregator as a missing-duration run
(`None` appended), and neither outcome aborts the remaining iterations:
the emitted sequence always covers every iteration and ends in
`JobFinished`. -/
theorem C1_launch_is_the_discriminant (results : List RunMakeResult) :
    (∀ r ∈ results,
      (runOutcomePayload r = JobMessagePayload.RunFinished ↔
        ∃ code, r = Except.ok code) ∧
      (runOutcomePayload r = JobMessagePayload.RunFailed ↔
        r = Except.error ())) ∧
    run_proof_payloads results =
      JobMessagePayload.JobStarted ::
        ((results.map runOutcomePayload).flatMap
            (fun b => [JobMessagePayload.RunStarted, b]) ++
          [JobMessagePayload.JobFinished]) ∧
    (∀ (fmt : Nat → List Nat) (s : AggState) (p : RustPath) (t : Nat)
        (name : List Nat) (start_time : Nat) (record : List (Option Nat)),
      fileNameUtf8 p = some name →
      mapLookup s.started_runs p = some start_time →
      mapLookup s.proof_runtimes p = some record →
      ∃ s', processEvent fmt s ⟨p, t, JobMessagePayload.RunFailed⟩ = some s' ∧
        mapLookup s'.proof_runtimes p = some (record ++ [none])) := by
  refine ⟨?_, ?_, ?_⟩
  · intro r hr
    constructor
    · cases r with
      | ok code => simp [runOutcomePayload]
      | error e => simp [runOutcomePayload]
    · cases r with
      | ok code => simp [runOutcomePayload]
      | error e => cases e; simp [runOutcomePayload]
  · simp [run_proof_payloads, runIterationPayloads_eq_flatMap]
  · intro fmt s p t name start_time record h1 h2 h3
    refine ⟨{ s with
                started_runs := mapRemove s.started_runs p,
                proof_runtimes :=
                  mapInsert s.proof_runtimes p (record ++ [none]) },
            ?_, ?_⟩
    · simp [processEvent, h1, h2, h3]
    · exact mapLookup_insert_self _ _ _

/-- **C1** witness: the amended theorem applied to an aggregator state
with one started run for job `"a"` and an empty record. -/
theorem C1_witness :
    ∃ s', processEvent fmt0 ⟨[(pathA, [])], [(pathA, 5)], 0, []⟩
        ⟨pathA, 9, JobMessagePayload.RunFailed⟩ = some s' ∧
      mapLookup s'.proof_runtimes pathA = some [none] := by
  have h := (C1_launch_is_the_discriminant []).2.2 fmt0
    ⟨[(pathA, [])], [(pathA, 5)], 0, []⟩ pathA 9 [97] 5 []
    (by decide) (by decide) (by decide)
  simpa using h

/-- **C2**: for a job with `n ≥ 1` configured iterations, `run_proof`
emits exactly one `JobStarted`, then `n` blocks of `RunStarted` followed
by exactly one of `RunFinished`/`RunFailed`, then one `JobFinished`;
hence `count RunStarted = count RunFinished + count RunFailed = n`. -/
theorem C2_event_sequence (results : List RunMakeResult) (n : Nat)
    (hlen : results.length = n) (hn : 1 ≤ n) :
    ∃ bs : List JobMessagePayload,
      bs.length = n ∧
      (∀ b ∈ bs, b = JobMessagePayload.RunFinished ∨
        b = JobMessagePayload.RunFailed) ∧
      run_proof_payloads results =
        JobMessagePayload.JobStarted ::
          (bs.flatMap (fun b => [JobMessagePayload.RunStarted, b]) ++
            [JobMessagePayload.JobFinished]) ∧
      countPayload JobMessagePayload.RunStarted (run_proof_payloads results) = n ∧
      countPayload JobMessagePayload.RunFinished (run_proof_payloads results) +
        countPayload JobMessagePayload.RunFailed (run_proof_payloads results) = n ∧
      countPayload JobMessagePayload.JobStarted (run_proof_payloads results) = 1 ∧
      countPayload JobMessagePayload.JobFinished (run_proof_payloads results) = 1 := by
  subst hlen
  refine ⟨results.map runOutcomePayload, by simp, ?_, ?_, ?_, ?_, ?_, ?_⟩
  · intro b hb
    obtain ⟨r, hr, rfl⟩ := List.mem_map.mp hb
    cases r with
    | ok code => simp [runOutcomePayload]
    | error e => simp [runOutcomePayload]
  · simp [run_proof_payloads, runIterationPayloads_eq_flatMap]
  · simp only [run_proof_payloads, countPayload_cons, countPayload_append,
      countPayload_nil, countPayload_iter_started]
    simp
  · have h := countPayload_iter_outcome results
    simp only [run_proof_payloads, countPayload_cons, countPayload_append,
      countPayload_nil]
    simp only [reduceCtorEq, if_false, if_true, reduceIte]
    omega
  · simp only [run_proof_payloads, countPayload_cons, countPayload_append,
      countPayload_nil, countPayload_iter_jobStarted]
    simp
  · simp only [run_proof_payloads, countPayload_cons, countPayload_append,
      countPayload_nil, countPayload_iter_jobFinished]
    simp

/-- **C2** witness: the theorem applied to a one-iteration job whose
single `run_make` call returned exit status 0. -/
theorem C2_witness :
    ∃ bs : List JobMessagePayload,
      bs.length = 1 ∧
      (∀ b ∈ bs, b = JobMessagePayload.RunFinished ∨
        b = JobMessagePayload.RunFailed) ∧
      run_proof_payloads [Except.ok 0] =
        JobMessagePayload.JobStarted ::
          (bs.flatMap (fun b => [JobMessagePayload.RunStarted, b]) ++
            [JobMessagePayload.JobFinished]) ∧
      countPayload JobMessagePayload.RunStarted (run_proof_payloads [Except.ok 0]) = 1 ∧
      countPayload JobMessagePayload.RunFinished (run_proof_payloads [Except.ok 0]) +
        countPayload JobMessagePayload.RunFailed (run_proof_payloads [Except.ok 0]) = 1 ∧
      countPayload JobMessagePayload.JobStarted (run_proof_payloads [Except.ok 0]) = 1 ∧
      countPayload JobMessagePayload.JobFinished (run_proof_payloads [Except.ok 0]) = 1 :=
  C2_event_sequence [Except.ok 0] 1 rfl (by decide)

/-- **C3**: when the aggregator processes a `RunFinished` event for a
job with an active start marker `start_time` and an event timestamp
`t ≥ start_time`, the duration it appends is `Some (t - start_time)`
(event timestamp minus the recorded most-recent `RunStarted`
timestamp), it is nonnegative, and the active-start marker is
cleared. -/
theorem C3_runFinished_duration (fmt : Nat → List Nat) (s : AggState)
    (p : RustPath) (t : Nat) (name : List Nat) (start_time : Nat)
    (record : List (Option Nat))
    (hname : fileNameUtf8 p = some name)
    (hstart : mapLookup s.started_runs p = some start_time)
    (hrec : mapLookup s.proof_runtimes p = some record)
    (hle : start_time ≤ t) :
    ∃ s', processEvent fmt s ⟨p, t, JobMessagePayload.RunFinished⟩ = some s' ∧
      mapLookup s'.proof_runtimes p = some (record ++ [some (t - start_time)]) ∧
      mapLookup s'.started_runs p = none ∧
      ((t - start_time : Nat) : Int) = (t : Int) - (start_time : Int) ∧
      0 ≤ ((t - start_time : Nat) : Int) := by
  refine ⟨{ s with
              started_runs := mapRemove s.started_runs p,
              proof_runtimes :=
                mapInsert s.proof_runtimes p
                  (record ++ [some (t - start_time)]) },
          ?_, ?_, ?_, ?_, ?_⟩
  · simp [processEvent, hname, hstart, hrec]
  · exact mapLookup_insert_self _ _ _
  · exact mapLookup_remove_self _ _
  · omega
  · omega

/-- **C3** witness: a `RunFinished` at timestamp 9 for a run started at
timestamp 5 records `Some 4`. -/
theorem C3_witness :
    ∃ s', processEvent fmt0 ⟨[(pathA, [])], [(pathA, 5)], 0, []⟩
        ⟨pathA, 9, JobMessagePayload.RunFinished⟩ = some s' ∧
      mapLookup s'.proof_runtimes pathA = some [some (9 - 5)] ∧
      mapLookup s'.started_runs pathA = none ∧
      ((9 - 5 : Nat) : Int) = (9 : Int) - (5 : Int) ∧
      0 ≤ ((9 - 5 : Nat) : Int) := by
  have h := C3_runFinished_duration fmt0 ⟨[(pathA, [])], [(pathA, 5)], 0, []⟩
    pathA 9 [97] 5 [] (by decide) (by decide) (by decide) (by decide)
  simpa using h

/-- **C4** (counterexample).  The claim says a `JobStarted` for a job
that already has a record is treated as fatal.  It is not: the
aggregator's `proof_runtimes.insert` (src/main.rs line 172) silently
replaces the existing record `[Some 3]` with a fresh empty one and the
loop carries on. -/
theorem C4_counterexample :
    processEvent fmt0 ⟨[(pathA, [some 3])], [], 0, []⟩
        ⟨pathA, 7, JobMessagePayload.JobStarted⟩ =
      some ⟨[(pathA, [])], [], 0, []⟩ ∧
    mapLookup [(pathA, [some 3])] pathA = some [some 3] := by
  decide

/-- **C4** (amended).  The aggregator panics (fatal) on a
`RunFinished`/`RunFailed` with no active run, and on a
`RunStarted`/`JobFinished` for a job with no record; but a `JobStarted`
for a job that already has a record silently replaces the record with
an empty one, and a `RunStarted` while a run is already active silently
overwrites the start marker — those two violations are absorbed, not
fatal. -/
theorem C4_protocol_violations (fmt : Nat → List Nat) (s : AggState)
    (p : RustPath) (t : Nat) (name : List Nat)
    (hname : fileNameUtf8 p = some name) :
    (mapLookup s.started_runs p = none →
      processEvent fmt s ⟨p, t, JobMessagePayload.RunFinished⟩ = none) ∧
    (mapLookup s.started_runs p = none →
      processEvent fmt s ⟨p, t, JobMessagePayload.RunFailed⟩ = none) ∧
    (mapLookup s.proof_runtimes p = none →
      processEvent fmt s ⟨p, t, JobMessagePayload.RunStarted⟩ = none) ∧
    (mapLookup s.proof_runtimes p = none →
      processEvent fmt s ⟨p, t, JobMessagePayload.JobFinished⟩ = none) ∧
    (∃ s', processEvent fmt s ⟨p, t, JobMessagePayload.JobStarted⟩ = some s' ∧
      mapLookup s'.proof_runtimes p = some []) ∧
    (∀ record, mapLookup s.proof_runtimes p = some record →
      ∃ s', processEvent fmt s ⟨p, t, JobMessagePayload.RunStarted⟩ = some s' ∧
        mapLookup s'.started_runs p = some t) := by
  refine ⟨?_, ?_, ?_, ?_, ?_, ?_⟩
  · intro h; simp [processEvent, hname, h]
  · intro h; simp [processEvent, hname, h]
  · intro h; simp [processEvent, hname, h]
  · intro h; simp [processEvent, hname, h]
  · refine ⟨{ s with
                proof_runtimes := mapInsert s.proof_runtimes p [] }, ?_, ?_⟩
    · simp [processEvent, hname]
    · exact mapLookup_insert_self _ _ _
  · intro record hrec
    refine ⟨{ s with
                started_runs := mapInsert s.started_runs p t }, ?_, ?_⟩
    · simp [processEvent, hname, hrec]
    · exact mapLookup_insert_self _ _ _

/-- **C4** witness: on the empty aggregator state, a `RunFinished` and
a `RunStarted` for job `"a"` both panic, while a duplicate `JobStarted`
over an existing record is absorbed. -/
theorem C4_witness :
    processEvent fmt0 initAgg ⟨pathA, 3, JobMessagePayload.RunFinished⟩ = none ∧
    processEvent fmt0 initAgg ⟨pathA, 3, JobMessagePayload.RunStarted⟩ = none ∧
    ∃ s', processEvent fmt0 initAgg ⟨pathA, 3, JobMessagePayload.JobStarted⟩ =
        some s' ∧
      mapLookup s'.proof_runtimes pathA = some [] := by
  have h := C4_protocol_violations fmt0 initAgg pathA 3 [97] (by decide)
  exact ⟨h.1 rfl, h.2.2.1 rfl, h.2.2.2.2.1⟩

/-- **C10**: for every event, the aggregator first extracts the job
path's final component and converts it to UTF-8 (src/main.rs lines
163-167); it panics when the path has no final component or the
component is not valid UTF-8, so event processing succeeds only for
job directories whose names are valid UTF-8. -/
theorem C10_job_name_extraction (fmt : Nat → List Nat) (s : AggState)
    (e : JobMessage) :
    (pathFileName e.path = none → processEvent fmt s e = none) ∧
    (∀ c, pathFileName e.path = some c → validUtf8 c = false →
      processEvent fmt s e = none) ∧
    (∀ s', processEvent fmt s e = some s' →
      ∃ c, pathFileName e.path = some c ∧ validUtf8 c = true) := by
  refine ⟨?_, ?_, ?_⟩
  · intro h
    simp [processEvent, fileNameUtf8, h]
  · intro c h1 h2
    simp [processEvent, fileNameUtf8, h1, h2]
  · intro s' h
    cases hf : pathFileName e.path with
    | none =>
      rw [show processEvent fmt s e = none from by
        simp [processEvent, fileNameUtf8, hf]] at h
      cases h
    | some c =>
      cases hval : validUtf8 c with
      | true => exact ⟨c, rfl, hval⟩
      | false =>
        rw [show processEvent fmt s e = none from by
          simp [processEvent, fileNameUtf8, hf, hval]] at h
        cases h

/-- **C10** witness: an event whose path has no components, and one
whose final component is the lone byte `0xFF` (invalid UTF-8), both
make the aggregator panic. -/
theorem C10_witness :
    processEvent fmt0 initAgg ⟨⟨[]⟩, 0, JobMessagePayload.JobStarted⟩ = none ∧
    processEvent fmt0 initAgg ⟨⟨[[255]]⟩, 0, JobMessagePayload.JobStarted⟩ = none := by
  constructor
  · exact (C10_job_name_extraction fmt0 initAgg _).1 (by decide)
  · exact (C10_job_name_extraction fmt0 initAgg _).2.1 [255] (by decide) (by decide)

/-- Cumulative effect of a sequence of file operations on an open file
whose cursor `pos` is inside the content: the bytes of the operations
overwrite the content from `pos` on, and everything beyond the written
range is untouched. -/
theorem applyOps_spec (ops : List FileOp) :
    ∀ (content : List Nat) (pos : Nat), pos ≤ content.length →
      applyOps ⟨content, pos⟩ ops =
        ⟨content.take pos ++ opsBytes ops ++
            content.drop (pos + (opsBytes ops).length),
          pos + (opsBytes ops).length⟩ := by
  induction ops with
  | nil =>
    intro content pos h
    simp [applyOps, opsBytes, List.take_append_drop]
  | cons op rest ih =>
    intro content pos h
    cases op with
    | flush =>
      simpa [applyOps, opsBytes] using ih content pos h
    | write b =>
      have htl : (content.take pos).length = pos := by
        simp [List.length_take]
        omega
      have hlen : pos + b.length ≤
          (content.take pos ++ b ++ content.drop (pos + b.length)).length := by
        simp [htl]
      have h2 := ih (content.take pos ++ b ++ content.drop (pos + b.length))
        (pos + b.length) hlen
      have hstep : applyOps ⟨content, pos⟩ (FileOp.write b :: rest) =
          applyOps ⟨content.take pos ++ b ++ content.drop (pos + b.length),
            pos + b.length⟩ rest := rfl
      rw [hstep, h2]
      have habl : (content.take pos ++ b).length = pos + b.length := by
        simp [htl]
      have htake : (content.take pos ++ b ++ content.drop (pos + b.length)).take
          (pos + b.length) = content.take pos ++ b := by
        rw [List.append_assoc]
        rw [← List.append_assoc]
        exact List.take_left' habl
      have hdrop : ∀ k, (content.take pos ++ b ++ content.drop (pos + b.length)).drop
          (pos + b.length + k) = content.drop (pos + b.length + k) := by
        intro k
        have : (content.take pos ++ b) ++ content.drop (pos + b.length) =
            content.take pos ++ b ++ content.drop (pos + b.length) := by
          rw [List.append_assoc]
        rw [← this]
        rw [← habl]
        rw [List.drop_append]
        rw [List.drop_drop]
      simp only [opsBytes, htake, hdrop]
      simp [FileState.mk.injEq, List.append_assoc, Nat.add_assoc]

/-- **C9**: the CSV file is opened with `create` and `write` but
neither `truncate` nor `append` (src/main.rs line 156), so an existing
file keeps its old content with the cursor at byte 0, the batch's
writes overwrite from offset 0, and any old bytes beyond the total
number of bytes written remain in the file. -/
theorem C9_open_without_truncate (old : List Nat) (ops : List FileOp) :
    csvOpenOptions.createFlag = true ∧
    csvOpenOptions.writeFlag = true ∧
    csvOpenOptions.truncateFlag = false ∧
    csvOpenOptions.appendFlag = false ∧
    openExisting csvOpenOptions old = ⟨old, 0⟩ ∧
    (applyOps (openExisting csvOpenOptions old) ops).content =
      opsBytes ops ++ old.drop (opsBytes ops).length := by
  refine ⟨rfl, rfl, rfl, rfl, rfl, ?_⟩
  have h := applyOps_spec ops old 0 (Nat.zero_le _)
  have : openExisting csvOpenOptions old = ⟨old, 0⟩ := rfl
  rw [this, h]
  simp

/-- `opsBytes` distributes over append. -/
theorem opsBytes_append (l1 l2 : List FileOp) :
    opsBytes (l1 ++ l2) = opsBytes l1 ++ opsBytes l2 := by
  induction l1 with
  | nil => rfl
  | cons op rest ih => cases op <;> simp [opsBytes, ih]

/-- Comma-intercalation of a nonempty field list, written as a
`flatMap` of comma-prefixed fields. -/
theorem intercalate_comma (x : List Nat) (fs : List (List Nat)) :
    List.intercalate [44] (x :: fs) =
      x ++ fs.flatMap (fun f => 44 :: f) := by
  induction fs generalizing x with
  | nil => simp [List.intercalate, List.intersperse]
  | cons f fs ih =>
    have h2 : List.intercalate [44] (x :: f :: fs) =
        x ++ [44] ++ List.intercalate [44] (f :: fs) := by
      simp [List.intercalate, List.intersperse_cons_cons]
    rw [h2, ih f]
    simp [List.flatMap_cons]

/-- The bytes of the per-run field operations of `dump_csv`: one comma
per run, then the formatted duration for a `Some` and nothing for a
`None`. -/
theorem opsBytes_csv_fields (fmt : Nat → List Nat) (runs : List (Option Nat)) :
    opsBytes (runs.flatMap fun run =>
        [FileOp.write [44]] ++
          (match run with
           | some runtime => [FileOp.write (fmt runtime)]
           | none => [])) =
      (runs.map (fun r => (r.map fmt).getD [])).flatMap (fun f => 44 :: f) := by
  induction runs with
  | nil => rfl
  | cons r rs ih =>
    cases r with
    | none =>
      rw [List.flatMap_cons, opsBytes_append, ih]
      simp [opsBytes]
    | some d =>
      rw [List.flatMap_cons, opsBytes_append, ih]
      simp [opsBytes]

/-- Inversion of a successful aggregator step: the shape of the
successor state in each of the five payload cases. -/
theorem processEvent_some_cases (fmt : Nat → List Nat) (s : AggState)
    (e : JobMessage) (s' : AggState) (h : processEvent fmt s e = some s') :
    ∃ name, fileNameUtf8 e.path = some name ∧
      ((e.payload = JobMessagePayload.JobStarted ∧
        s' = { s with proof_runtimes := mapInsert s.proof_runtimes e.path [] }) ∨
       (∃ record, e.payload = JobMessagePayload.JobFinished ∧
        mapLookup s.proof_runtimes e.path = some record ∧
        s' = { s with
                completed_jobs := s.completed_jobs + 1,
                csv := s.csv ++ dump_csv fmt name record }) ∨
       (∃ record, e.payload = JobMessagePayload.RunStarted ∧
        mapLookup s.proof_runtimes e.path = some record ∧
        s' = { s with
                started_runs := mapInsert s.started_runs e.path e.timestamp }) ∨
       (∃ start_time record, e.payload = JobMessagePayload.RunFailed ∧
        mapLookup s.started_runs e.path = some start_time ∧
        mapLookup s.proof_runtimes e.path = some record ∧
        s' = { s with
                started_runs := mapRemove s.started_runs e.path,
                proof_runtimes :=
                  mapInsert s.proof_runtimes e.path (record ++ [none]) }) ∨
       (∃ start_time record, e.payload = JobMessagePayload.RunFinished ∧
        mapLookup s.started_runs e.path = some start_time ∧
        mapLookup s.proof_runtimes e.path = some record ∧
        s' = { s with
                started_runs := mapRemove s.started_runs e.path,
                proof_runtimes :=
                  mapInsert s.proof_runtimes e.path
                    (record ++ [some (e.timestamp - start_time)]) })) := by
  cases hn : fileNameUtf8 e.path with
  | none => simp [processEvent, hn] at h
  | some name =>
    refine ⟨name, rfl, ?_⟩
    cases hp : e.payload with
    | JobStarted =>
      simp [processEvent, hn, hp] at h
      exact Or.inl ⟨rfl, h.symm⟩
    | JobFinished =>
      cases hr : mapLookup s.proof_runtimes e.path with
      | none => simp [processEvent, hn, hp, hr] at h
      | some record =>
        simp [processEvent, hn, hp, hr] at h
        exact Or.inr (Or.inl ⟨record, rfl, rfl, h.symm⟩)
    | RunStarted =>
      cases hr : mapLookup s.proof_runtimes e.path with
      | none => simp [processEvent, hn, hp, hr] at h
      | some record =>
        simp [processEvent, hn, hp, hr] at h
        exact Or.inr (Or.inr (Or.inl ⟨record, rfl, rfl, h.symm⟩))
    | RunFailed =>
      cases hst : mapLookup s.started_runs e.path with
      | none => simp [processEvent, hn, hp, hst] at h
      | some start_time =>
        cases hr : mapLookup s.proof_runtimes e.path with
        | none => simp [processEvent, hn, hp, hst, hr] at h
        | some record =>
          simp [processEvent, hn, hp, hst, hr] at h
          exact Or.inr (Or.inr (Or.inr (Or.inl
            ⟨start_time, record, rfl, rfl, rfl, h.symm⟩)))
    | RunFinished =>
      cases hst : mapLookup s.started_runs e.path with
      | none => simp [processEvent, hn, hp, hst] at h
      | some start_time =>
        cases hr : mapLookup s.proof_runtimes e.path with
        | none => simp [processEvent, hn, hp, hst, hr] at h
        | some record =>
          simp [processEvent, hn, hp, hst, hr] at h
          exact Or.inr (Or.inr (Or.inr (Or.inr
            ⟨start_time, record, rfl, rfl, rfl, h.symm⟩)))

/-- **C7**: the row `dump_csv` writes for a finished job is the job
name followed by exactly one comma-separated field per run in run order
(the formatted duration for a success, empty for a failure), terminated
by a single newline; the operation sequence is writes followed by one
final `flush` (the file is flushed immediately after the row); and the
aggregator writes to the file only when processing `JobFinished` (so no
header row is ever written). -/
theorem C7_csv_row (fmt : Nat → List Nat) (name : List Nat)
    (runs : List (Option Nat)) :
    opsBytes (dump_csv fmt name runs) =
      List.intercalate [44]
        (name :: runs.map (fun r => (r.map fmt).getD [])) ++ [10] ∧
    (runs.map (fun r => (r.map fmt).getD [])).length = runs.length ∧
    (∃ ws : List FileOp, dump_csv fmt name runs = ws ++ [FileOp.flush] ∧
      ∀ op ∈ ws, ∃ b, op = FileOp.write b) ∧
    (∀ (s s' : AggState) (e : JobMessage), processEvent fmt s e = some s' →
      (e.payload ≠ JobMessagePayload.JobFinished → s'.csv = s.csv) ∧
      (e.payload = JobMessagePayload.JobFinished →
        ∃ c record, fileNameUtf8 e.path = some c ∧
          mapLookup s.proof_runtimes e.path = some record ∧
          s'.csv = s.csv ++ dump_csv fmt c record)) := by
  refine ⟨?_, by simp, ?_, ?_⟩
  · rw [intercalate_comma]
    simp only [dump_csv]
    rw [opsBytes_append, opsBytes_append, opsBytes_csv_fields]
    simp [opsBytes, List.append_assoc]
  · refine ⟨[FileOp.write name] ++
      (runs.flatMap fun run =>
        [FileOp.write [44]] ++
          (match run with
           | some runtime => [FileOp.write (fmt runtime)]
           | none => [])) ++ [FileOp.write [10]], ?_, ?_⟩
    · simp [dump_csv]
    · intro op hop
      simp only [List.mem_append] at hop
      rcases hop with (h | h) | h
      · simp at h
        exact ⟨name, h⟩
      · rcases List.mem_flatMap.mp h with ⟨r, hr, hop2⟩
        cases r with
        | some d =>
          simp at hop2
          rcases hop2 with h2 | h2
          · exact ⟨[44], h2⟩
          · exact ⟨fmt d, h2⟩
        | none =>
          simp at hop2
          exact ⟨[44], hop2⟩
      · simp at h
        exact ⟨[10], h⟩
  · intro s s' e h
    obtain ⟨c, hn, hcases⟩ := processEvent_some_cases fmt s e s' h
    constructor
    · intro hne
      rcases hcases with ⟨hp, rfl⟩ | ⟨record, hp, hr, rfl⟩ | ⟨record, hp, hr, rfl⟩ |
        ⟨st, record, hp, hst, hr, rfl⟩ | ⟨st, record, hp, hst, hr, rfl⟩
      · rfl
      · exact absurd hp hne
      · rfl
      · rfl
      · rfl
    · intro hp2
      rcases hcases with ⟨hp, rfl⟩ | ⟨record, hp, hr, rfl⟩ | ⟨record, hp, hr, rfl⟩ |
        ⟨st, record, hp, hst, hr, rfl⟩ | ⟨st, record, hp, hst, hr, rfl⟩
      · rw [hp] at hp2; simp at hp2
      · exact ⟨c, record, hn, hr, rfl⟩
      · rw [hp] at hp2; simp at hp2
      · rw [hp] at hp2; simp at hp2
      · rw [hp] at hp2; simp at hp2

/-- **C7** witness: a concrete row (name `"a"`, one successful and one
failed run), and a concrete `JobFinished` step appending one row to the
previously empty file. -/
theorem C7_witness :
    opsBytes (dump_csv fmt0 [97] [some 1, none]) =
      List.intercalate [44]
        ([97] :: [some 1, none].map (fun r => (r.map fmt0).getD [])) ++ [10] ∧
    ∃ c record, fileNameUtf8 pathA = some c ∧
      mapLookup [(pathA, ([] : List (Option Nat)))] pathA = some record ∧
      [FileOp.write [97], FileOp.write [10], FileOp.flush] =
        [] ++ dump_csv fmt0 c record := by
  constructor
  · exact (C7_csv_row fmt0 [97] [some 1, none]).1
  · have h := ((C7_csv_row fmt0 [97] []).2.2.2 ⟨[(pathA, [])], [], 0, []⟩
      ⟨[(pathA, [])], [], 1, [FileOp.write [97], FileOp.write [10], FileOp.flush]⟩
      ⟨pathA, 2, JobMessagePayload.JobFinished⟩ (by decide)).2 rfl
    simpa using h

/-- Unfolding of `bytesLe` on two nonempty byte strings. -/
theorem bytesLe_cons (x y : Nat) (xs ys : List Nat) :
    bytesLe (x :: xs) (y :: ys) = true ↔
      (x < y ∨ (x = y ∧ bytesLe xs ys = true)) := by
  simp only [bytesLe]
  by_cases h1 : x < y
  · simp [h1]
  · by_cases h2 : y < x
    · simp only [if_neg h1, if_pos h2]
      constructor
      · intro hF
        exact Bool.noConfusion hF
      · intro hor
        rcases hor with h | ⟨hxy, _⟩
        · exact absurd h h1
        · exact absurd hxy (by omega)
    · have hxy : x = y := by omega
      subst hxy
      simp [h1]

/-- `bytesLe` is total. -/
theorem bytesLe_total (a b : List Nat) :
    bytesLe a b = true ∨ bytesLe b a = true := by
  induction a generalizing b with
  | nil => left; rfl
  | cons x xs ih =>
    cases b with
    | nil => right; rfl
    | cons y ys =>
      rcases Nat.lt_trichotomy x y with h | h | h
      · left; exact (bytesLe_cons _ _ _ _).mpr (Or.inl h)
      · subst h
        rcases ih ys with h2 | h2
        · left; exact (bytesLe_cons _ _ _ _).mpr (Or.inr ⟨rfl, h2⟩)
        · right; exact (bytesLe_cons _ _ _ _).mpr (Or.inr ⟨rfl, h2⟩)
      · right; exact (bytesLe_cons _ _ _ _).mpr (Or.inl h)

/-- `bytesLe` is transitive. -/
theorem bytesLe_trans (a b c : List Nat) (h1 : bytesLe a b = true)
    (h2 : bytesLe b c = true) : bytesLe a c = true := by
  induction a generalizing b c with
  | nil => rfl
  | cons x xs ih =>
    cases b with
    | nil => simp [bytesLe] at h1
    | cons y ys =>
      cases c with
      | nil => simp [bytesLe] at h2
      | cons z zs =>
        rw [bytesLe_cons] at h1 h2 ⊢
        rcases h1 with h1 | ⟨rfl, h1⟩
        · rcases h2 with h2 | ⟨rfl, h2⟩
          · exact Or.inl (Nat.lt_trans h1 h2)
          · exact Or.inl h1
        · rcases h2 with h2 | ⟨rfl, h2⟩
          · exact Or.inl h2
          · exact Or.inr ⟨rfl, ih ys zs h1 h2⟩

/-- `bytesLe` is antisymmetric. -/
theorem bytesLe_antisymm (a b : List Nat) (h1 : bytesLe a b = true)
    (h2 : bytesLe b a = true) : a = b := by
  induction a generalizing b with
  | nil =>
    cases b with
    | nil => rfl
    | cons y ys => simp [bytesLe] at h2
  | cons x xs ih =>
    cases b with
    | nil => simp [bytesLe] at h1
    | cons y ys =>
      rw [bytesLe_cons] at h1 h2
      rcases h1 with h1 | ⟨rfl, h1⟩
      · rcases h2 with h2 | ⟨h2, _⟩ <;> exact absurd h1 (by omega)
      · rcases h2 with h2 | ⟨_, h2⟩
        · exact absurd h2 (by omega)
        · rw [ih ys h1 h2]

/-- Unfolding of `pathLe` on two nonempty component lists. -/
theorem pathLe_cons (c d : List Nat) (cs ds : List (List Nat)) :
    pathLe (c :: cs) (d :: ds) = true ↔
      ((c = d ∧ pathLe cs ds = true) ∨ (c ≠ d ∧ bytesLe c d = true)) := by
  simp only [pathLe]
  by_cases h : c = d <;> simp [h]

/-- `pathLe` is total. -/
theorem pathLe_total (a b : List (List Nat)) :
    pathLe a b = true ∨ pathLe b a = true := by
  induction a generalizing b with
  | nil => left; rfl
  | cons c cs ih =>
    cases b with
    | nil => right; rfl
    | cons d ds =>
      by_cases h : c = d
      · subst h
        rcases ih ds with h2 | h2
        · left; exact (pathLe_cons _ _ _ _).mpr (Or.inl ⟨rfl, h2⟩)
        · right; exact (pathLe_cons _ _ _ _).mpr (Or.inl ⟨rfl, h2⟩)
      · rcases bytesLe_total c d with h2 | h2
        · left; exact (pathLe_cons _ _ _ _).mpr (Or.inr ⟨h, h2⟩)
        · right; exact (pathLe_cons _ _ _ _).mpr (Or.inr ⟨Ne.symm h, h2⟩)

/-- `pathLe` is transitive. -/
theorem pathLe_trans (a b c : List (List Nat)) (h1 : pathLe a b = true)
    (h2 : pathLe b c = true) : pathLe a c = true := by
  induction a generalizing b c with
  | nil => rfl
  | cons x xs ih =>
    cases b with
    | nil => simp [pathLe] at h1
    | cons y ys =>
      cases c with
      | nil => simp [pathLe] at h2
      | cons z zs =>
        rw [pathLe_cons] at h1 h2 ⊢
        rcases h1 with ⟨rfl, h1⟩ | ⟨hne1, h1⟩
        · rcases h2 with ⟨rfl, h2⟩ | ⟨hne2, h2⟩
          · exact Or.inl ⟨rfl, ih ys zs h1 h2⟩
          · exact Or.inr ⟨hne2, h2⟩
        · rcases h2 with ⟨rfl, h2⟩ | ⟨hne2, h2⟩
          · exact Or.inr ⟨hne1, h1⟩
          · by_cases hxz : x = z
            · subst hxz
              exact absurd (bytesLe_antisymm _ _ h1 h2) hne1
            · exact Or.inr ⟨hxz, bytesLe_trans _ _ _ h1 h2⟩

/-- `rustPathLe` is total. -/
theorem rustPathLe_total (p q : RustPath) :
    rustPathLe p q = true ∨ rustPathLe q p = true :=
  pathLe_total p.components q.components

/-- `rustPathLe` is transitive. -/
theorem rustPathLe_trans (p q r : RustPath) (h1 : rustPathLe p q = true)
    (h2 : rustPathLe q r = true) : rustPathLe p r = true :=
  pathLe_trans p.components q.components r.components h1 h2

/-- Ordered insertion permutes pushing the new element to the front. -/
theorem insertLe_perm (le : RustPath → RustPath → Bool) (x : RustPath)
    (l : List RustPath) : (insertLe le x l).Perm (x :: l) := by
  induction l with
  | nil => exact List.Perm.refl _
  | cons y ys ih =>
    by_cases h : le x y = true
    · simp [insertLe, h]
    · simp only [insertLe, h]
      simp only [Bool.false_eq_true, if_false]
      exact (ih.cons y).trans (List.Perm.swap x y ys)

/-- Ordered insertion into a sorted list stays sorted (needs totality
and transitivity of the order). -/
theorem insertLe_pairwise (le : RustPath → RustPath → Bool)
    (htotal : ∀ a b, le a b = true ∨ le b a = true)
    (htrans : ∀ a b c, le a b = true → le b c = true → le a c = true)
    (x : RustPath) (l : List RustPath)
    (h : l.Pairwise (fun a b => le a b = true)) :
    (insertLe le x l).Pairwise (fun a b => le a b = true) := by
  induction l with
  | nil => simp [insertLe]
  | cons y ys ih =>
    rcases List.pairwise_cons.mp h with ⟨hy, hys⟩
    by_cases hxy : le x y = true
    · simp only [insertLe, hxy, if_true]
      refine List.pairwise_cons.mpr ⟨?_, h⟩
      intro z hz
      rcases List.mem_cons.mp hz with rfl | hz
      · exact hxy
      · exact htrans x y z hxy (hy z hz)
    · simp only [insertLe, hxy]
      simp only [Bool.false_eq_true, if_false]
      refine List.pairwise_cons.mpr ⟨?_, ih hys⟩
      intro z hz
      have hz2 := (insertLe_perm le x ys).mem_iff.mp hz
      rcases List.mem_cons.mp hz2 with hzx | hz3
      · rcases htotal x y with h2 | h2
        · exact absurd h2 hxy
        · rw [hzx]
          exact h2
      · exact hy z hz3

/-- The sort model permutes its input. -/
theorem sortPaths_perm (le : RustPath → RustPath → Bool) (l : List RustPath) :
    (sortPaths le l).Perm l := by
  induction l with
  | nil => exact List.Perm.refl _
  | cons x xs ih =>
    exact ((insertLe_perm le x (sortPaths le xs)).trans (ih.cons x))

/-- The sort model sorts (given a total, transitive order). -/
theorem sortPaths_pairwise (le : RustPath → RustPath → Bool)
    (htotal : ∀ a b, le a b = true ∨ le b a = true)
    (htrans : ∀ a b c, le a b = true → le b c = true → le a c = true)
    (l : List RustPath) :
    (sortPaths le l).Pairwise (fun a b => le a b = true) := by
  induction l with
  | nil => simp [sortPaths]
  | cons x xs ih => exact insertLe_pairwise le htotal htrans x _ ih

/-- Inversion of `to_proof_dir`: the entries it keeps. -/
theorem to_proof_dir_eq_some (fs : RustPath → Bool) (root : RustPath)
    (e : Except Unit DirEntry) (p : RustPath) :
    to_proof_dir fs root e = some p ↔
      ∃ en, e = Except.ok en ∧
        fs (pathJoin (pathJoin root en.name) makefileBytes) = true ∧
        p = pathJoin root en.name := by
  cases e with
  | error u => simp [to_proof_dir]
  | ok en =>
    by_cases hfs : fs (pathJoin (pathJoin root en.name) makefileBytes) = true
    · simp only [to_proof_dir, if_pos hfs]
      constructor
      · intro h
        exact ⟨en, rfl, hfs, (Option.some.injEq _ _ ▸ h).symm⟩
      · rintro ⟨en2, hen, hfs2, rfl⟩
        cases hen
        rfl
    · simp only [to_proof_dir, if_neg hfs]
      constructor
      · intro h
        cases h
      · rintro ⟨en2, hen, hfs2, rfl⟩
        cases hen
        exact absurd hfs2 hfs

/-- `pathJoin` under a fixed root is injective in the appended name. -/
theorem pathJoin_inj (root : RustPath) (a b : List Nat)
    (h : pathJoin root a = pathJoin root b) : a = b := by
  have h2 : root.components ++ [a] = root.components ++ [b] := congrArg RustPath.components h
  have h3 := List.append_cancel_left h2
  exact (List.cons.injEq _ _ _ _ ▸ h3).1

/-- If the successfully-read entry names are distinct then the
discovered proof directories are distinct. -/
theorem filterMap_to_proof_dir_nodup (fs : RustPath → Bool) (root : RustPath)
    (entries : List (Except Unit DirEntry))
    (h : (okNames entries).Nodup) :
    (entries.filterMap (to_proof_dir fs root)).Nodup := by
  induction entries with
  | nil => exact List.nodup_nil
  | cons e rest ih =>
    cases e with
    | error u =>
      have hok : okNames (Except.error u :: rest) = okNames rest := by
        simp [okNames]
      rw [hok] at h
      simpa [List.filterMap_cons, to_proof_dir] using ih h
    | ok en =>
      have hok : okNames (Except.ok en :: rest) = en.name :: okNames rest := by
        simp [okNames]
      rw [hok] at h
      rcases List.nodup_cons.mp h with ⟨hnotin, hrest⟩
      by_cases hfs : fs (pathJoin (pathJoin root en.name) makefileBytes) = true
      · have hstep : (Except.ok en :: rest).filterMap (to_proof_dir fs root) =
            pathJoin root en.name :: rest.filterMap (to_proof_dir fs root) := by
          simp [List.filterMap_cons, to_proof_dir, hfs]
        rw [hstep]
        refine List.nodup_cons.mpr ⟨?_, ih hrest⟩
        intro hmem
        rcases List.mem_filterMap.mp hmem with ⟨e2, he2, hsome⟩
        rcases (to_proof_dir_eq_some fs root e2 _).mp hsome with ⟨en2, rfl, hfs2, heq⟩
        have hname : en2.name = en.name := pathJoin_inj root _ _ heq.symm
        apply hnotin
        rw [← hname]
        exact List.mem_filterMap.mpr ⟨Except.ok en2, he2, rfl⟩
      · have hstep : (Except.ok en :: rest).filterMap (to_proof_dir fs root) =
            rest.filterMap (to_proof_dir fs root) := by
          simp [List.filterMap_cons, to_proof_dir, hfs]
        rw [hstep]
        exact ih hrest

/-- **C6**: given a readable root directory, discovery produces the
sorted (byte-lexicographic `PathBuf` order) list of one path per
successfully-read entry whose directory contains `Makefile`; entries
whose read failed are silently excluded, and (for a listing with
distinct names) each qualifying subdirectory appears exactly once. -/
theorem C6_discovery (fs : RustPath → Bool) (root : RustPath)
    (entries : List (Except Unit DirEntry)) :
    (run_all_proofs_discovery fs root entries).Pairwise
        (fun p q => rustPathLe p q = true) ∧
    (run_all_proofs_discovery fs root entries).Perm
      (entries.filterMap (to_proof_dir fs root)) ∧
    (∀ p, p ∈ run_all_proofs_discovery fs root entries ↔
      ∃ en, Except.ok en ∈ entries ∧
        fs (pathJoin (pathJoin root en.name) makefileBytes) = true ∧
        p = pathJoin root en.name) ∧
    (∀ err : Unit, to_proof_dir fs root (Except.error err) = none) ∧
    ((okNames entries).Nodup → (run_all_proofs_discovery fs root entries).Nodup) := by
  refine ⟨?_, ?_, ?_, fun _ => rfl, ?_⟩
  · exact sortPaths_pairwise rustPathLe rustPathLe_total rustPathLe_trans _
  · exact sortPaths_perm rustPathLe _
  · intro p
    simp only [run_all_proofs_discovery]
    rw [(sortPaths_perm rustPathLe _).mem_iff]
    rw [List.mem_filterMap]
    constructor
    · rintro ⟨e, he, hsome⟩
      rcases (to_proof_dir_eq_some fs root e p).mp hsome with ⟨en, rfl, hfs, hp⟩
      exact ⟨en, he, hfs, hp⟩
    · rintro ⟨en, hen, hfs, hp⟩
      exact ⟨Except.ok en, hen,
        (to_proof_dir_eq_some fs root _ p).mpr ⟨en, rfl, hfs, hp⟩⟩
  · intro h
    exact ((sortPaths_perm rustPathLe _).nodup_iff).mpr
      (filterMap_to_proof_dir_nodup fs root entries h)

/-- **C6** witness: scanning a listing with entries `"b"`, a failed
read, and `"a"` over a filesystem where both `a/Makefile` and
`b/Makefile` exist yields exactly `[a, b]`, sorted and without
duplicates. -/
theorem C6_witness :
    run_all_proofs_discovery fs0 root0 entries0 = [⟨[[97]]⟩, ⟨[[98]]⟩] ∧
    (run_all_proofs_discovery fs0 root0 entries0).Nodup ∧
    (⟨[[97]]⟩ : RustPath) ∈ run_all_proofs_discovery fs0 root0 entries0 := by
  refine ⟨by decide, (C6_discovery fs0 root0 entries0).2.2.2.2 (by decide), ?_⟩
  exact ((C6_discovery fs0 root0 entries0).2.2.1 ⟨[[97]]⟩).mpr
    ⟨⟨[97]⟩, by simp [entries0], by decide, by decide⟩

/-- Occupying an idle slot adds exactly that job to the busy multiset. -/
theorem filterMap_id_set_some (ws : List (Option RunProofMessage)) (i : Nat)
    (w : RunProofMessage) (h : ws[i]? = some none) :
    ((ws.set i (some w)).filterMap id).Perm (w :: ws.filterMap id) := by
  induction ws generalizing i with
  | nil => simp at h
  | cons o rest ih =>
    cases i with
    | zero =>
      simp only [List.getElem?_cons_zero, Option.some.injEq] at h
      subst h
      simp [List.set, List.filterMap_cons]
    | succ i =>
      simp only [List.getElem?_cons_succ] at h
      cases o with
      | none =>
        simpa [List.set, List.filterMap_cons] using ih i h
      | some v =>
        simp only [List.set, List.filterMap_cons, id]
        exact ((ih i h).cons v).trans (List.Perm.swap w v _)

/-- Releasing a busy slot removes exactly that job from the busy
multiset. -/
theorem filterMap_id_set_none (ws : List (Option RunProofMessage)) (i : Nat)
    (w : RunProofMessage) (h : ws[i]? = some (some w)) :
    (ws.filterMap id).Perm (w :: (ws.set i none).filterMap id) := by
  induction ws generalizing i with
  | nil => simp at h
  | cons o rest ih =>
    cases i with
    | zero =>
      simp only [List.getElem?_cons_zero, Option.some.injEq] at h
      subst h
      simp [List.set, List.filterMap_cons]
    | succ i =>
      simp only [List.getElem?_cons_succ] at h
      cases o with
      | none =>
        simpa [List.set, List.filterMap_cons] using ih i h
      | some v =>
        simp only [List.set, List.filterMap_cons, id]
        exact ((ih i h).cons v).trans (List.Perm.swap w v _)


/-- The two pool invariants: the worker vector keeps its size, and the
queued, in-flight and completed jobs together are always a permutation
of the discovered work items. -/
theorem poolStep_inv (items : List RunProofMessage) (k : Nat)
    (s s2 : PoolState) (hstep : PoolStep s s2)
    (hlen : s.workers.length = k)
    (hperm : (s.pending ++ busyJobs s ++ s.done).Perm items) :
    s2.workers.length = k ∧
      (s2.pending ++ busyJobs s2 ++ s2.done).Perm items := by
  simp only [busyJobs] at hperm
  cases hstep with
  | grab i w rest hidle hpend =>
    refine ⟨by simpa using hlen, ?_⟩
    simp only [busyJobs]
    have hbusy := filterMap_id_set_some s.workers i w hidle
    rw [hpend] at hperm
    refine List.Perm.trans ?_ hperm
    simp only [List.append_assoc, List.cons_append]
    refine (List.Perm.append_left rest (hbusy.append (List.Perm.refl s.done))).trans ?_
    exact List.perm_middle
  | finish i w hbusyidx =>
    refine ⟨by simpa using hlen, ?_⟩
    simp only [busyJobs]
    have hbusy := filterMap_id_set_none s.workers i w hbusyidx
    refine List.Perm.trans ?_ hperm
    simp only [List.append_assoc]
    have hmid : ((s.workers.set i none).filterMap id ++ w :: s.done).Perm
        (w :: ((s.workers.set i none).filterMap id ++ s.done)) := List.perm_middle
    have h2 : (w :: ((s.workers.set i none).filterMap id ++ s.done)).Perm
        (s.workers.filterMap id ++ s.done) := by
      have h3 := hbusy.append (List.Perm.refl s.done)
      simpa using h3.symm
    exact List.Perm.append_left s.pending (hmid.trans h2)

/-- Before any step, no external command is in flight. -/
theorem busyJobs_initPool (items : List RunProofMessage) (k : Nat) :
    busyJobs (initPool items k) = [] := by
  induction k with
  | zero => rfl
  | succ n ih =>
    simpa [initPool, busyJobs, List.replicate, List.filterMap_cons] using ih

/-- **C8**: in every reachable state of the worker pool, at most
`parallel_jobs` jobs' external commands are in flight (there are only
`parallel_jobs` workers, each running at most one job); the queued,
in-flight and completed jobs are always a permutation of the discovered
work items, so when the queue is drained and all workers are idle every
work item has been executed exactly once; and with at least one worker
the pool can always take a step while work remains. -/
theorem C8_bounded_pool (items : List RunProofMessage) (parallel_jobs : Nat)
    (s : PoolState) (h : PoolReachable items parallel_jobs s) :
    (busyJobs s).length ≤ parallel_jobs ∧
    (s.pending ++ busyJobs s ++ s.done).Perm items ∧
    (s.pending = [] → busyJobs s = [] → s.done.Perm items) ∧
    (1 ≤ parallel_jobs → s.pending ≠ [] ∨ busyJobs s ≠ [] →
      ∃ s2, PoolStep s s2) := by
  have hinv : s.workers.length = parallel_jobs ∧
      (s.pending ++ busyJobs s ++ s.done).Perm items := by
    induction h with
    | refl =>
      refine ⟨by simp [initPool], ?_⟩
      rw [busyJobs_initPool]
      simp [initPool]
    | tail _ hstep ih =>
      exact poolStep_inv items parallel_jobs _ _ hstep ih.1 ih.2
  obtain ⟨hlen, hperm⟩ := hinv
  refine ⟨?_, hperm, ?_, ?_⟩
  · calc (busyJobs s).length ≤ s.workers.length :=
        List.length_filterMap_le id s.workers
      _ = parallel_jobs := hlen
  · intro hp hb
    rw [hp, hb] at hperm
    simpa using hperm
  · intro hk hne
    cases hb : busyJobs s with
    | cons w bs =>
      have hwmem : (some w) ∈ s.workers := by
        have hmem : w ∈ s.workers.filterMap id := by
          have h2 : w ∈ busyJobs s := by
            rw [hb]
            exact List.mem_cons_self w bs
          exact h2
        rcases List.mem_filterMap.mp hmem with ⟨o, ho, hid⟩
        simp only [id] at hid
        rw [hid] at ho
        exact ho
      rcases List.mem_iff_getElem?.mp hwmem with ⟨i, hi⟩
      exact ⟨_, PoolStep.finish s i w hi⟩
    | nil =>
      rcases hne with hne | hne
      · cases hpend : s.pending with
        | nil => exact absurd hpend hne
        | cons w rest =>
          cases hw : s.workers with
          | nil =>
            rw [hw] at hlen
            simp at hlen
            omega
          | cons o ws2 =>
            cases o with
            | some v =>
              rw [busyJobs, hw] at hb
              simp [List.filterMap_cons] at hb
            | none =>
              have hi : s.workers[0]? = some none := by
                rw [hw]
                simp
              exact ⟨_, PoolStep.grab s 0 w rest hi hpend⟩
      · exact absurd hb hne

/-- **C8** witness: the theorem applied to the initial state of a
one-job, one-worker batch. -/
theorem C8_witness :
    (busyJobs (initPool items0 1)).length ≤ 1 ∧
    ((initPool items0 1).pending ++ busyJobs (initPool items0 1) ++
      (initPool items0 1).done).Perm items0 ∧
    ((initPool items0 1).pending = [] → busyJobs (initPool items0 1) = [] →
      (initPool items0 1).done.Perm items0) ∧
    (1 ≤ 1 → (initPool items0 1).pending ≠ [] ∨ busyJobs (initPool items0 1) ≠ [] →
      ∃ s2, PoolStep (initPool items0 1) s2) :=
  C8_bounded_pool items0 1 (initPool items0 1) Relation.ReflTransGen.refl

/-- `payloadProj` over a cons: the head contributes exactly when it
belongs to the projected job. -/
theorem payloadProj_cons (p : RustPath) (e : JobMessage) (t : List JobMessage) :
    payloadProj p (e :: t) =
      if e.path = p then e.payload :: payloadProj p t else payloadProj p t := by
  simp only [payloadProj, List.filter_cons]
  by_cases h : e.path = p
  · simp [h]
  · simp [h]

/-- `payloadProj` distributes over append. -/
theorem payloadProj_append (p : RustPath) (t1 t2 : List JobMessage) :
    payloadProj p (t1 ++ t2) = payloadProj p t1 ++ payloadProj p t2 := by
  simp [payloadProj, List.filter_append]

/-- Each job's complete emission contains exactly one `JobFinished`. -/
theorem countFinished_run_proof (results : List RunMakeResult) :
    countPayload JobMessagePayload.JobFinished (run_proof_payloads results) = 1 := by
  simp only [run_proof_payloads, countPayload_cons, countPayload_append,
    countPayload_nil, countPayload_iter_jobFinished]
  simp

/-- A proper prefix of a job's complete emission contains no
`JobFinished` (the single `JobFinished` is the final payload). -/
theorem countFinished_proper_prefix (results : List RunMakeResult)
    (a b : List JobMessagePayload) (hb : b ≠ [])
    (heq : a ++ b = run_proof_payloads results) :
    countPayload JobMessagePayload.JobFinished a = 0 := by
  have hfull : run_proof_payloads results =
      (JobMessagePayload.JobStarted :: runIterationPayloads results) ++
        [JobMessagePayload.JobFinished] := by
    simp [run_proof_payloads]
  have hlenb : 1 ≤ b.length := List.length_pos.mpr hb
  have hlen : a.length ≤
      (JobMessagePayload.JobStarted :: runIterationPayloads results).length := by
    have h2 := congrArg List.length heq
    rw [hfull] at h2
    simp only [List.length_append, List.length_cons,
      List.length_nil] at h2 ⊢
    omega
  have hpre : a = (run_proof_payloads results).take a.length :=
    List.prefix_iff_eq_take.mp ⟨b, heq⟩
  rw [hfull, List.take_append_of_le_length hlen] at hpre
  have hsub : a.Sublist
      (JobMessagePayload.JobStarted :: runIterationPayloads results) := by
    rw [hpre]
    exact List.take_sublist _ _
  have hcount := List.Sublist.countP_le
    (fun x => decide (x = JobMessagePayload.JobFinished)) hsub
  have hA : countPayload JobMessagePayload.JobFinished
      (JobMessagePayload.JobStarted :: runIterationPayloads results) = 0 := by
    simp only [countPayload_cons, countPayload_iter_jobFinished]
    simp
  simp only [countPayload] at hA ⊢
  omega

/-- Summing a pointwise bump at one member of a list with distinct
members adds exactly the bump (helper, member absent). -/
theorem sum_map_add_ite_notmem (x : RustPath) (d : Nat) (f : RustPath → Nat)
    (js : List RustPath) (hx : x ∉ js) :
    (js.map (fun p => f p + (if x = p then d else 0))).sum = (js.map f).sum := by
  induction js with
  | nil => rfl
  | cons j js ih =>
    have hne : x ≠ j := fun h => hx (h ▸ List.mem_cons_self j js)
    have hx2 : x ∉ js := fun h => hx (List.mem_cons_of_mem j h)
    simp only [List.map_cons, List.sum_cons, if_neg hne, ih hx2]
    omega

/-- Summing a pointwise bump at one member of a list with distinct
members adds exactly the bump. -/
theorem sum_map_add_ite (x : RustPath) (d : Nat) (f : RustPath → Nat)
    (jobs : List RustPath) (hnd : jobs.Nodup) (hmem : x ∈ jobs) :
    (jobs.map (fun p => f p + (if x = p then d else 0))).sum =
      (jobs.map f).sum + d := by
  induction jobs with
  | nil => cases hmem
  | cons j js ih =>
    rcases List.nodup_cons.mp hnd with ⟨hj, hnds⟩
    rcases List.mem_cons.mp hmem with heq | hmem2
    · subst heq
      rw [List.map_cons, List.sum_cons, sum_map_add_ite_notmem x d f js hj]
      have hxx : (if x = x then d else 0) = d := if_pos rfl
      rw [hxx, List.map_cons, List.sum_cons]
      omega
    · have hne : x ≠ j := fun h => hj (h ▸ hmem2)
      simp only [List.map_cons, List.sum_cons, if_neg hne, ih hnds hmem2]
      omega

/-- A sum of values each at most 1 is at most the length. -/
theorem sum_map_le_length (f : RustPath → Nat) (l : List RustPath)
    (hf : ∀ p ∈ l, f p ≤ 1) : (l.map f).sum ≤ l.length := by
  induction l with
  | nil => simp
  | cons j js ih =>
    simp only [List.map_cons, List.sum_cons, List.length_cons]
    have h1 := hf j (List.mem_cons_self j js)
    have h2 := ih (fun p hp => hf p (List.mem_cons_of_mem j hp))
    omega

/-- A sum of values each at most 1, with a zero at some member of a
duplicate-free list, is strictly below the length. -/
theorem sum_map_lt_length (f : RustPath → Nat) (jobs : List RustPath)
    (x : RustPath) (hnd : jobs.Nodup) (hx : x ∈ jobs) (hfx : f x = 0)
    (hf : ∀ p ∈ jobs, f p ≤ 1) : (jobs.map f).sum < jobs.length := by
  induction jobs with
  | nil => cases hx
  | cons j js ih =>
    rcases List.nodup_cons.mp hnd with ⟨hj, hnds⟩
    simp only [List.map_cons, List.sum_cons, List.length_cons]
    rcases List.mem_cons.mp hx with heq | hmem
    · subst heq
      have h2 := sum_map_le_length f js
        (fun p hp => hf p (List.mem_cons_of_mem x hp))
      omega
    · have h1 := hf j (List.mem_cons_self j js)
      have h2 := ih hnds hmem (fun p hp => hf p (List.mem_cons_of_mem j hp))
      omega

/-- A sum of ones over a list is its length. -/
theorem sum_map_ones (l : List RustPath) (f : RustPath → Nat)
    (h : ∀ p ∈ l, f p = 1) : (l.map f).sum = l.length := by
  induction l with
  | nil => rfl
  | cons j js ih =>
    simp only [List.map_cons, List.sum_cons, List.length_cons]
    rw [h j (List.mem_cons_self j js),
      ih (fun p hp => h p (List.mem_cons_of_mem j hp))]
    omega

/-- Partitioning the `JobFinished` count of a trace across the
(distinct) jobs its events belong to. -/
theorem msgsFinished_partition (jobs : List RustPath) (t : List JobMessage)
    (hnd : jobs.Nodup) (hpaths : ∀ e ∈ t, e.path ∈ jobs) :
    msgsFinished t =
      (jobs.map (fun p => countPayload JobMessagePayload.JobFinished
        (payloadProj p t))).sum := by
  induction t with
  | nil =>
    simp [msgsFinished, payloadProj, countPayload]
  | cons e t2 ih =>
    have hpaths2 : ∀ e2 ∈ t2, e2.path ∈ jobs :=
      fun e2 he2 => hpaths e2 (List.mem_cons_of_mem e he2)
    have hx : e.path ∈ jobs := hpaths e (List.mem_cons_self e t2)
    have hpoint : ∀ p, countPayload JobMessagePayload.JobFinished
        (payloadProj p (e :: t2)) =
        countPayload JobMessagePayload.JobFinished (payloadProj p t2) +
          (if e.path = p then
            (if e.payload = JobMessagePayload.JobFinished then 1 else 0) else 0) := by
      intro p
      rw [payloadProj_cons]
      by_cases h : e.path = p
      · rw [if_pos h, if_pos h, countPayload_cons]
      · rw [if_neg h, if_neg h]
        omega
    have hmap : (jobs.map (fun p => countPayload JobMessagePayload.JobFinished
        (payloadProj p (e :: t2)))).sum =
        (jobs.map (fun p => countPayload JobMessagePayload.JobFinished
          (payloadProj p t2))).sum +
          (if e.payload = JobMessagePayload.JobFinished then 1 else 0) := by
      have hcongr : jobs.map (fun p => countPayload JobMessagePayload.JobFinished
          (payloadProj p (e :: t2))) =
          jobs.map (fun p => countPayload JobMessagePayload.JobFinished
            (payloadProj p t2) +
            (if e.path = p then
              (if e.payload = JobMessagePayload.JobFinished then 1 else 0)
            else 0)) :=
        List.map_congr_left (fun p _ => hpoint p)
      rw [hcongr]
      exact sum_map_add_ite e.path _ _ jobs hnd hx
    rw [hmap, ← ih hpaths2]
    simp only [msgsFinished, List.countP_cons]
    by_cases hjf : e.payload = JobMessagePayload.JobFinished
    · simp [hjf]
    · simp [hjf]

/-- A successful aggregator step increments `completed_jobs` exactly on
`JobFinished` (src/main.rs line 175) and leaves it unchanged otherwise. -/
theorem processEvent_completed (fmt : Nat → List Nat) (s : AggState)
    (e : JobMessage) (s' : AggState) (h : processEvent fmt s e = some s') :
    s'.completed_jobs = s.completed_jobs +
      (if e.payload = JobMessagePayload.JobFinished then 1 else 0) := by
  obtain ⟨name, hn, hcases⟩ := processEvent_some_cases fmt s e s' h
  rcases hcases with ⟨hp, rfl⟩ | ⟨record, hp, hr, rfl⟩ | ⟨record, hp, hr, rfl⟩ |
    ⟨st, record, hp, hst, hr, rfl⟩ | ⟨st, record, hp, hst, hr, rfl⟩ <;>
    simp [hp]

/-- Over any message sequence the aggregator loop consumes without a
panic, `completed_jobs` grows by exactly the number of `JobFinished`
messages. -/
theorem aggLoop_completed (fmt : Nat → List Nat) :
    ∀ (t : List JobMessage) (s s' : AggState), aggLoop fmt s t = some s' →
      s'.completed_jobs = s.completed_jobs + msgsFinished t := by
  intro t
  induction t with
  | nil =>
    intro s s' h
    simp only [aggLoop, Option.some.injEq] at h
    subst h
    simp [msgsFinished]
  | cons e rest ih =>
    intro s s' h
    simp only [aggLoop] at h
    cases hpe : processEvent fmt s e with
    | none =>
      rw [hpe] at h
      cases h
    | some s2 =>
      rw [hpe] at h
      have h1 := processEvent_completed fmt s e s2 hpe
      have h2 := ih s2 s' h
      rw [h2, h1]
      simp only [msgsFinished, List.countP_cons]
      by_cases hjf : e.payload = JobMessagePayload.JobFinished
      · simp only [hjf]
        simp
        omega
      · simp only [msgsFinished] at *
        simp [hjf]

/-- **C5**: over a complete delivered trace of the batch, the
completed-job counter maintained by the aggregator loop reaches the job
count exactly at the end of the event stream: after any successfully
processed prefix, `completed_jobs` equals the number of jobs iff
nothing of the trace remains (the loop, which stops when the stream
ends, therefore stops exactly when the counter reaches the job count
returned by the scheduler). -/
theorem C5_loop_termination (fmt : Nat → List Nat) (jobs : List RustPath)
    (results : RustPath → List RunMakeResult) (t pre q : List JobMessage)
    (hct : completeTrace jobs results t) (hsplit : t = pre ++ q)
    (s' : AggState) (hrun : aggLoop fmt initAgg pre = some s') :
    (s'.completed_jobs = jobs.length ↔ q = []) := by
  obtain ⟨hnd, hpaths, hproj⟩ := hct
  have hcomp : s'.completed_jobs = msgsFinished pre := by
    have h0 := aggLoop_completed fmt pre initAgg s' hrun
    simpa [initAgg] using h0
  have hpaths_pre : ∀ e ∈ pre, e.path ∈ jobs :=
    fun e he => hpaths e (hsplit ▸ List.mem_append_left q he)
  have hpartition := msgsFinished_partition jobs pre hnd hpaths_pre
  have hsplitcount : ∀ p ∈ jobs,
      countPayload JobMessagePayload.JobFinished (payloadProj p pre) +
        countPayload JobMessagePayload.JobFinished (payloadProj p q) = 1 := by
    intro p hp
    have h1 := hproj p hp
    rw [hsplit, payloadProj_append] at h1
    have h2 := congrArg (countPayload JobMessagePayload.JobFinished) h1
    rw [countPayload_append, countFinished_run_proof] at h2
    exact h2
  constructor
  · intro hcount
    cases hq : q with
    | nil => rfl
    | cons e q2 =>
      exfalso
      have hx : e.path ∈ jobs := by
        refine hpaths e ?_
        rw [hsplit, hq]
        exact List.mem_append_right pre (List.mem_cons_self e q2)
      have hzero : countPayload JobMessagePayload.JobFinished
          (payloadProj e.path pre) = 0 := by
        have h1 := hproj e.path hx
        rw [hsplit, hq, payloadProj_append] at h1
        refine countFinished_proper_prefix (results e.path) _ _ ?_ h1
        rw [payloadProj_cons, if_pos rfl]
        exact List.cons_ne_nil _ _
      have hle : ∀ p ∈ jobs, countPayload JobMessagePayload.JobFinished
          (payloadProj p pre) ≤ 1 := by
        intro p hp
        have := hsplitcount p hp
        omega
      have hlt := sum_map_lt_length
        (fun p => countPayload JobMessagePayload.JobFinished (payloadProj p pre))
        jobs e.path hnd hx hzero hle
      rw [hcomp, hpartition] at hcount
      omega
  · intro hq
    subst hq
    simp only [List.append_nil] at hsplit
    subst hsplit
    rw [hcomp, hpartition]
    exact sum_map_ones jobs _ (fun p hp => by
      have h1 := hproj p hp
      rw [h1]
      exact countFinished_run_proof _)

/-- **C5** witness: the theorem applied to a complete one-job trace,
fully consumed. -/
theorem C5_witness :
    ((AggState.mk [(pathA, [])] [] 1
        [FileOp.write [97], FileOp.write [10], FileOp.flush]).completed_jobs =
      [pathA].length ↔ ([] : List JobMessage) = []) :=
  C5_loop_termination fmt0 [pathA] (fun _ => []) trace0 trace0 []
    ⟨by decide, by decide, by decide⟩ (by decide)
    (AggState.mk [(pathA, [])] [] 1
      [FileOp.write [97], FileOp.write [10], FileOp.flush])
    (by decide)
